import Mathlib

/-!
Verification of the streamchat protocol (src/rust_03/src/main.rs): a
Diffie-Hellman style key agreement followed by length-prefixed, XOR
stream-cipher framed messaging.  Machine integers are modelled as `Nat`
with explicit reductions modulo `2 ^ 32` / `2 ^ 64` wherever the Rust
code wraps or casts; byte streams are `List Nat`; fallible operations
return `Except`.
-/

namespace Streamchat

/-- Fixed 64-bit modulus `P` shared by both peers (main.rs line 7). -/
def P : Nat := 0xD87FA3E29184CF73

/-- Fixed generator `G` (main.rs line 8). -/
def G : Nat := 2

/-- Maximum message length in bytes, 1 MiB (main.rs line 11). -/
def MAX_MSG_LEN : Nat := 1048576

/-- Overflow-safe modular multiplication (main.rs lines 321-323):
both operands are widened to `u128`, multiplied, reduced modulo `m`,
and the result is cast back to `u64` (the trailing `% 2 ^ 64`). -/
def mul_mod (a b m : Nat) : Nat := a * b % m % 2 ^ 64

/-- Loop of `modexp` (main.rs lines 332-340) as a fuel-indexed iteration.
The fuel only bounds the number of iterations of the `while exp > 0`
loop: the exponent at least halves each round, so any fuel ≥ `e`
suffices, and `modexp` below passes the initial exponent as fuel. -/
def modexpGo (m : Nat) (fuel b e r : Nat) : Nat :=
  match fuel with
  | 0 => r
  | fuel + 1 =>
    if e = 0 then r
    else
      let r' := if e % 2 = 1 then mul_mod r b m else r
      let e' := e / 2
      let b' := if 0 < e' then mul_mod b b m else b
      modexpGo m fuel b' e' r'

/-- Square-and-multiply modular exponentiation (main.rs lines 325-342):
`modulus == 1` returns 0, otherwise the base is first reduced modulo
the modulus and the binary exponentiation loop runs. -/
def modexp (base exp modulus : Nat) : Nat :=
  if modulus = 1 then 0
  else modexpGo modulus exp (base % modulus) exp 1

/-- SplitMix64-style mixing function (main.rs lines 345-351), on `Nat`
with wrapping 64-bit arithmetic made explicit. -/
def mix64 (x : Nat) : Nat :=
  let x1 := (x + 0x9E3779B97F4A7C15) % 2 ^ 64
  let z1 := (x1 ^^^ (x1 >>> 30)) * 0xBF58476D1CE4E5B9 % 2 ^ 64
  let z2 := (z1 ^^^ (z1 >>> 27)) * 0x94D049BB133111EB % 2 ^ 64
  z2 ^^^ (z2 >>> 31)

/-- Keystream generator state, a `u32` (main.rs lines 299-302). -/
structure Keystream where
  state : Nat
deriving DecidableEq

/-- Keystream construction (main.rs lines 305-310): fold the 64-bit seed
into 32 bits by XOR of its low and high halves (`seed as u32` and
`(seed >> 32) as u32`); a zero fold is replaced by `0x6D2B79F5`. -/
def Keystream.new (seed : Nat) : Keystream :=
  let folded := seed % 2 ^ 32 ^^^ (seed >>> 32) % 2 ^ 32
  { state := if folded = 0 then 0x6D2B79F5 else folded }

/-- One LCG step (main.rs lines 312-318): `state = state * A + C` with
wrapping 32-bit arithmetic, emitting the top byte of the new state.
The Rust method mutates `self`; here the successor state is returned
alongside the output byte. -/
def Keystream.next_byte (ks : Keystream) : Keystream × Nat :=
  let s := (ks.state * 1103515245 + 12345) % 2 ^ 32
  ({ state := s }, s >>> 24)

/-- The keystream state after `n` byte requests. -/
def Keystream.advance (ks : Keystream) : Nat → Keystream
  | 0 => ks
  | n + 1 => (ks.next_byte).1.advance n

/-- XOR a byte list with successive keystream bytes, threading the
generator state (the loop bodies of main.rs lines 268-270 and 293-295). -/
def xorWithKeystream (ks : Keystream) : List Nat → List Nat
  | [] => []
  | b :: rest => (b ^^^ (ks.next_byte).2) :: xorWithKeystream (ks.next_byte).1 rest

/-- Big-endian 4-byte encoding of a `u32` (`u32::to_be_bytes`). -/
def u32ToBe (x : Nat) : List Nat :=
  [x >>> 24 % 256, x >>> 16 % 256, x >>> 8 % 256, x % 256]

/-- Big-endian 8-byte encoding of a `u64` (`u64::to_be_bytes`). -/
def u64ToBe (x : Nat) : List Nat :=
  [x >>> 56 % 256, x >>> 48 % 256, x >>> 40 % 256, x >>> 32 % 256,
   x >>> 24 % 256, x >>> 16 % 256, x >>> 8 % 256, x % 256]

/-- Big-endian decoding of a byte list (`from_be_bytes`). -/
def beToNat (bs : List Nat) : Nat := bs.foldl (fun acc b => acc * 256 + b) 0

/-- Frame encoder `send_msg` (main.rs lines 253-275).  The plaintext
length must fit in a `u32` (the `try_into`) and must not exceed
`MAX_MSG_LEN`; the ciphertext is the plaintext XORed with the keystream.
The generator is received by immutable borrow and only a local clone is
advanced (`let mut local = ks.clone()`), so the caller-visible generator
after the call, returned here as the second component, is `ks` itself.
The first component of the result is the byte sequence written to the wire:
the 4-byte big-endian length followed by the ciphertext. -/
def send_msg (ks : Keystream) (plain : List Nat) : Except String (List Nat × Keystream) :=
  if 2 ^ 32 ≤ plain.length then .error "message too long"
  else if MAX_MSG_LEN < plain.length then .error "message too large"
  else .ok (u32ToBe plain.length ++ xorWithKeystream ks plain, ks)

/-- Frame decoder `recv_msg` (main.rs lines 277-297).  Reads a 4-byte
big-endian length; a declared length above `MAX_MSG_LEN` is rejected
before any ciphertext is read; otherwise exactly that many ciphertext
bytes are read and XORed with the keystream.  As in `send_msg`, only a
local clone of the generator is advanced, so the caller-visible
generator, returned as the third component, is `ks` unchanged.  The
second component is the unread remainder of the input stream. -/
def recv_msg (ks : Keystream) (stream : List Nat) :
    Except String (List Nat × List Nat × Keystream) :=
  if stream.length < 4 then .error "read failed"
  else
    let len := beToNat (stream.take 4)
    let rest := stream.drop 4
    if MAX_MSG_LEN < len then .error "incoming message too large"
    else if rest.length < len then .error "read failed"
    else .ok (xorWithKeystream ks (rest.take len), rest.drop len, ks)

/-- A sequence of `send_msg` calls on the generator of one direction, as in
`handle_server_session` / `handle_client_session`: each call receives
the generator returned by the previous call (the session field `keys.send`,
which `send_msg` borrows immutably). -/
def sendAll (ks : Keystream) : List (List Nat) → Except String (List (List Nat) × Keystream)
  | [] => .ok ([], ks)
  | m :: ms =>
    match send_msg ks m with
    | .error e => .error e
    | .ok (f, ks1) =>
      match sendAll ks1 ms with
      | .error e => .error e
      | .ok (fs, ks2) => .ok (f :: fs, ks2)

/-- A sequence of `n` `recv_msg` calls on the generator of one
direction, as in the session handlers: each call receives the generator
returned by the previous call (the session field `keys.recv`, which
`recv_msg` borrows immutably) and the stream remainder left by the
previous call. -/
def recvAll (ks : Keystream) :
    Nat → List Nat → Except String (List (List Nat) × List Nat × Keystream)
  | 0, stream => .ok ([], stream, ks)
  | n + 1, stream =>
    match recv_msg ks stream with
    | .error e => .error e
    | .ok (p, rest, ks1) =>
      match recvAll ks1 n rest with
      | .error e => .error e
      | .ok (ps, rest2, ks2) => .ok (p :: ps, rest2, ks2)

/-- The wire image of a list of frame bodies: each body preceded by its
4-byte big-endian length (the concatenation of the frames one peer
sends on a direction). -/
def wireOfBodies : List (List Nat) → List Nat
  | [] => []
  | b :: bs => u32ToBe b.length ++ b ++ wireOfBodies bs

/-- Peer role (main.rs lines 169-173). -/
inductive Role where
  | Server
  | Client
deriving DecidableEq

/-- The two directional generators produced by the handshake
(main.rs lines 175-178). -/
structure Keys where
  send : Keystream
  recv : Keystream
deriving DecidableEq

/-- Handshake failure conditions (the `std::io::Error` values raised in
`dh_handshake`, plus transport read failures). -/
inductive HsError where
  | ioError
  | invalidPeerKey
  | secretMismatch
deriving DecidableEq

/-- The duplex stream as seen by one peer: `rx` holds the bytes not yet
read, `tx` the bytes written so far. -/
structure Chan where
  rx : List Nat
  tx : List Nat
deriving DecidableEq

/-- `read_exact` on the modelled stream: take exactly `n` bytes or fail. -/
def read_exact (c : Chan) (n : Nat) : Except (HsError × Chan) (List Nat × Chan) :=
  if c.rx.length < n then .error (.ioError, c)
  else .ok (c.rx.take n, { rx := c.rx.drop n, tx := c.tx })

/-- `write_all` on the modelled stream: append to the written bytes. -/
def write_all (c : Chan) (bs : List Nat) : Chan :=
  { rx := c.rx, tx := c.tx ++ bs }

/-- One 8-byte exchange of `dh_handshake` (main.rs lines 187-201 and
215-229): the Server writes its own value first and then reads the
value of the peer; the Client reads first and then writes. -/
def exchange8 (role : Role) (c : Chan) (mine : Nat) : Except (HsError × Chan) (Nat × Chan) :=
  match role with
  | .Server =>
    match read_exact (write_all c (u64ToBe mine)) 8 with
    | .error e => .error e
    | .ok (buf, c2) => .ok (beToNat buf, c2)
  | .Client =>
    match read_exact c 8 with
    | .error e => .error e
    | .ok (buf, c2) => .ok (beToNat buf, write_all c2 (u64ToBe mine))

/-- The handshake `dh_handshake` (main.rs lines 180-251) with the random
draw of the private exponent made a parameter.  Errors carry the stream
state at the point of failure, so the theorems can state how much I/O
was performed before the handshake failed. -/
def dh_handshake (role : Role) (priv : Nat) (c : Chan) :
    Except (HsError × Chan) (Keys × Chan) :=
  let public := modexp G priv P
  match exchange8 role c public with
  | .error e => .error e
  | .ok (peer_public, c) =>
    if peer_public ≤ 1 ∨ P - 1 ≤ peer_public then
      .error (.invalidPeerKey, c)
    else
      let secret := modexp peer_public priv P
      let my_proof := mix64 (secret ^^^ 0xA5A5A5A5A5A5A5A5)
      match exchange8 role c my_proof with
      | .error e => .error e
      | .ok (peer_proof, c) =>
        if peer_proof ≠ my_proof then
          .error (.secretMismatch, c)
        else
          let seed_s2c := mix64 (secret ^^^ 0x5352563E00000001)
          let seed_c2s := mix64 (secret ^^^ 0x434C493E00000002)
          let sr :=
            match role with
            | .Server => (seed_s2c, seed_c2s)
            | .Client => (seed_c2s, seed_s2c)
          .ok ({ send := Keystream.new sr.1, recv := Keystream.new sr.2 }, c)

/-- The public value a peer with private exponent `x` sends. -/
def publicOf (x : Nat) : Nat := modexp G x P

/-- The bytes the Client (private exponent `b`) writes during a
handshake against the Server (private exponent `a`): its public value
followed by its proof value. -/
def wireFromClient (a b : Nat) : List Nat :=
  u64ToBe (publicOf b) ++
    u64ToBe (mix64 (modexp (publicOf a) b P ^^^ 0xA5A5A5A5A5A5A5A5))

/-- The bytes the Server (private exponent `a`) writes during a
handshake against the Client (private exponent `b`). -/
def wireFromServer (a b : Nat) : List Nat :=
  u64ToBe (publicOf a) ++
    u64ToBe (mix64 (modexp (publicOf b) a P ^^^ 0xA5A5A5A5A5A5A5A5))

/-- Modelled from the spec: the naive repeated-multiplication loop that
`modexp` is claimed to agree with — multiply by the base `e` times,
reducing modulo `m` at every step. -/
def modexpNaive (a : Nat) : Nat → Nat → Nat
  | 0, m => 1 % m
  | e + 1, m => modexpNaive a e m * a % m

/-! Arithmetic helper lemmas. -/

theorem mul_mod_eq (a b m : Nat) (hm : 0 < m) (hm64 : m ≤ 2 ^ 64) :
    mul_mod a b m = a * b % m := by
  unfold mul_mod
  exact Nat.mod_eq_of_lt (lt_of_lt_of_le (Nat.mod_lt _ hm) hm64)

theorem modexpGo_spec (m : Nat) (hm : 0 < m) (hm64 : m ≤ 2 ^ 64) :
    ∀ fuel e b r, e ≤ fuel → b < m → r < m →
      modexpGo m fuel b e r = r * b ^ e % m := by
  intro fuel
  induction fuel with
  | zero =>
    intro e b r he hb hr
    have h0 : e = 0 := by omega
    subst h0
    simp [modexpGo, Nat.mod_eq_of_lt hr]
  | succ fuel ih =>
    intro e b r he hb hr
    rw [modexpGo]
    by_cases h0 : e = 0
    · subst h0
      simp [Nat.mod_eq_of_lt hr]
    · simp only [if_neg h0]
      have hbb : mul_mod b b m = b * b % m := mul_mod_eq b b m hm hm64
      have hrb : mul_mod r b m = r * b % m := mul_mod_eq r b m hm hm64
      have he' : e / 2 ≤ fuel := by omega
      have hr' : (if e % 2 = 1 then mul_mod r b m else r) < m := by
        split
        · rw [hrb]; exact Nat.mod_lt _ hm
        · exact hr
      by_cases hz : 0 < e / 2
      · rw [if_pos hz, ih (e / 2) (mul_mod b b m) _ he' (by rw [hbb]; exact Nat.mod_lt _ hm) hr']
        have hpow : (mul_mod b b m) ^ (e / 2) % m = (b ^ 2) ^ (e / 2) % m := by
          rw [hbb, ← pow_two, ← Nat.pow_mod]
        rcases Nat.even_or_odd e with heven | hodd
        · have h2 : e % 2 = 0 := Nat.even_iff.mp heven
          rw [if_neg (by omega)]
          rw [Nat.mul_mod, hpow, ← Nat.mul_mod, ← pow_mul]
          have h2e : 2 * (e / 2) = e := by omega
          rw [h2e]
        · have h2 : e % 2 = 1 := Nat.odd_iff.mp hodd
          rw [if_pos h2, hrb]
          rw [Nat.mul_mod, hpow, Nat.mod_mod_of_dvd _ dvd_rfl, ← Nat.mul_mod,
            ← pow_mul, mul_assoc, ← pow_succ']
          have h2e : 2 * (e / 2) + 1 = e := by omega
          rw [h2e]
      · have he1 : e = 1 := by omega
        subst he1
        norm_num
        rcases fuel with _ | fuel <;> simp [modexpGo, hrb, pow_one]

theorem modexp_spec (base e m : Nat) (hm : 0 < m) (hm64 : m ≤ 2 ^ 64) :
    modexp base e m = base ^ e % m := by
  unfold modexp
  by_cases h1 : m = 1
  · subst h1
    simp [Nat.mod_one]
  · rw [if_neg h1,
      modexpGo_spec m hm hm64 e e (base % m) 1 le_rfl (Nat.mod_lt _ hm) (by omega),
      one_mul, ← Nat.pow_mod]

theorem modexpNaive_spec (a e m : Nat) : modexpNaive a e m = a ^ e % m := by
  induction e with
  | zero => simp [modexpNaive]
  | succ e ih =>
    rw [modexpNaive, ih, Nat.mod_mul_mod, ← pow_succ]

theorem modexp_lt (b e m : Nat) (hm : 0 < m) (hm64 : m ≤ 2 ^ 64) :
    modexp b e m < m := by
  rw [modexp_spec b e m hm hm64]
  exact Nat.mod_lt _ hm

theorem shiftRight_le_self (z k : Nat) : z >>> k ≤ z := by
  rw [Nat.shiftRight_eq_div_pow]
  exact Nat.div_le_self _ _

theorem mix64_lt (x : Nat) : mix64 x < 2 ^ 64 := by
  unfold mix64
  exact Nat.xor_lt_two_pow (Nat.mod_lt _ (by norm_num))
    (lt_of_le_of_lt (shiftRight_le_self _ _) (Nat.mod_lt _ (by norm_num)))

/-! Byte-encoding and keystream helper lemmas. -/

theorem u32ToBe_length (x : Nat) : (u32ToBe x).length = 4 := rfl

theorem u64ToBe_length (x : Nat) : (u64ToBe x).length = 8 := rfl

theorem beToNat_u32 (x : Nat) (h : x < 2 ^ 32) : beToNat (u32ToBe x) = x := by
  simp only [beToNat, u32ToBe, List.foldl, Nat.shiftRight_eq_div_pow]
  omega

theorem beToNat_u64 (x : Nat) (h : x < 2 ^ 64) : beToNat (u64ToBe x) = x := by
  simp only [beToNat, u64ToBe, List.foldl, Nat.shiftRight_eq_div_pow]
  omega

theorem xorWithKeystream_length (bs : List Nat) :
    ∀ ks : Keystream, (xorWithKeystream ks bs).length = bs.length := by
  induction bs with
  | nil => intro ks; rfl
  | cons b rest ih => intro ks; simp [xorWithKeystream, ih]

theorem xorWithKeystream_involutive (bs : List Nat) :
    ∀ ks : Keystream, xorWithKeystream ks (xorWithKeystream ks bs) = bs := by
  induction bs with
  | nil => intro ks; rfl
  | cons b rest ih =>
    intro ks
    simp [xorWithKeystream, ih, Nat.xor_assoc, Nat.xor_self, Nat.xor_zero]

theorem send_msg_ok (ks : Keystream) (plain : List Nat)
    (h : plain.length ≤ MAX_MSG_LEN) :
    send_msg ks plain = .ok (u32ToBe plain.length ++ xorWithKeystream ks plain, ks) := by
  have h32 : plain.length < 2 ^ 32 := by
    have : MAX_MSG_LEN < 2 ^ 32 := by norm_num [MAX_MSG_LEN]
    omega
  rw [send_msg, if_neg (by omega), if_neg (by omega)]

/-! Stream-exchange helper lemmas. -/

theorem exchange8_ok (role : Role) (v : Nat) (hv : v < 2 ^ 64)
    (rest tx : List Nat) (mine : Nat) :
    exchange8 role { rx := u64ToBe v ++ rest, tx := tx } mine =
      .ok (v, { rx := rest, tx := tx ++ u64ToBe mine }) := by
  have hlen : (u64ToBe v ++ rest).length = 8 + rest.length := by
    simp [u64ToBe_length]
  have htake : (u64ToBe v ++ rest).take 8 = u64ToBe v :=
    List.take_left' (u64ToBe_length v)
  have hdrop : (u64ToBe v ++ rest).drop 8 = rest :=
    List.drop_left' (u64ToBe_length v)
  cases role <;>
    simp [exchange8, read_exact, write_all, hlen, htake, hdrop, beToNat_u64 v hv]

theorem exchange8_ok_exact (role : Role) (v : Nat) (hv : v < 2 ^ 64)
    (tx : List Nat) (mine : Nat) :
    exchange8 role { rx := u64ToBe v, tx := tx } mine =
      .ok (v, { rx := [], tx := tx ++ u64ToBe mine }) := by
  have h := exchange8_ok role v hv [] tx mine
  simpa using h

theorem exchange8_error (role : Role) (c : Chan) (mine : Nat)
    (e : HsError × Chan) (h : exchange8 role c mine = .error e) :
    e.1 = .ioError := by
  cases role <;> by_cases hlen : c.rx.length < 8 <;>
    simp [exchange8, read_exact, write_all, hlen] at h <;> rw [← h]

theorem recv_msg_ok (ks : Keystream) (len : Nat) (h32 : len < 2 ^ 32)
    (hle : len ≤ MAX_MSG_LEN) (body rest : List Nat) (hbody : body.length = len) :
    recv_msg ks (u32ToBe len ++ (body ++ rest)) =
      .ok (xorWithKeystream ks body, rest, ks) := by
  have hlen : (u32ToBe len ++ (body ++ rest)).length = 4 + (body.length + rest.length) := by
    simp [u32ToBe_length]
  have htake : (u32ToBe len ++ (body ++ rest)).take 4 = u32ToBe len :=
    List.take_left' (u32ToBe_length len)
  have hdrop : (u32ToBe len ++ (body ++ rest)).drop 4 = body ++ rest :=
    List.drop_left' (u32ToBe_length len)
  have hbtake : (body ++ rest).take len = body := List.take_left' hbody
  have hbdrop : (body ++ rest).drop len = rest := List.drop_left' hbody
  simp only [recv_msg, htake, hdrop, beToNat_u32 len h32, hbtake, hbdrop]
  rw [if_neg (by omega), if_neg (by omega), if_neg (by simp [hbody])]

theorem send_msg_ok_inv (ks : Keystream) (m f : List Nat) (ks1 : Keystream)
    (h : send_msg ks m = .ok (f, ks1)) :
    ks1 = ks ∧ f = u32ToBe m.length ++ xorWithKeystream ks m := by
  unfold send_msg at h
  split at h
  · cases h
  · split at h
    · cases h
    · simp only [Except.ok.injEq, Prod.mk.injEq] at h
      exact ⟨h.2.symm, h.1.symm⟩

/-! Claim theorems. -/

/-- C1: Encrypt-then-decrypt round trip.  For every directional seed and
every plaintext of at most `MAX_MSG_LEN` bytes, a frame produced by
`send_msg` with a `Keystream` built from that seed is decoded by
`recv_msg` with an independently constructed `Keystream` from the same
seed back to exactly the original plaintext (with the remaining stream
untouched). -/
theorem encode_decode_roundtrip (seed : Nat) (plain frame : List Nat)
    (ks1 : Keystream) (rest : List Nat) (h : plain.length ≤ MAX_MSG_LEN)
    (hf : send_msg (Keystream.new seed) plain = .ok (frame, ks1)) :
    recv_msg (Keystream.new seed) (frame ++ rest) =
      .ok (plain, rest, Keystream.new seed) := by
  rw [send_msg_ok _ _ h] at hf
  simp only [Except.ok.injEq, Prod.mk.injEq] at hf
  obtain ⟨hframe, -⟩ := hf
  subst hframe
  have h32 : plain.length < 2 ^ 32 := by
    have : MAX_MSG_LEN < 2 ^ 32 := by norm_num [MAX_MSG_LEN]
    omega
  rw [List.append_assoc,
    recv_msg_ok (Keystream.new seed) plain.length h32 h _ rest
      (xorWithKeystream_length plain _),
    xorWithKeystream_involutive plain _]

theorem encode_decode_roundtrip_witness :
    recv_msg (Keystream.new 0)
        ((u32ToBe 2 ++ xorWithKeystream (Keystream.new 0) [65, 66]) ++ []) =
      .ok ([65, 66], [], Keystream.new 0) :=
  encode_decode_roundtrip 0 [65, 66] _ (Keystream.new 0) []
    (by norm_num [MAX_MSG_LEN]) rfl

/-- C2 counterexample: the claim asserts that after a sequence of
`send_msg` calls the persisted generator of the direction equals its initial
state advanced once per plaintext byte sent.  Concretely, after sending
the single 1-byte message `[65]` from `Keystream.new 0`, the persisted
generator is NOT the initial state advanced by 1. -/
theorem keystream_advancement_cex :
    ¬ (sendAll (Keystream.new 0) [[65]]).toOption.map Prod.snd =
        some (Keystream.advance (Keystream.new 0) 1) := by decide

theorem sendAll_unchanged (ks : Keystream) (msgs frames : List (List Nat))
    (ks1 : Keystream) (h : sendAll ks msgs = .ok (frames, ks1)) :
    ks1 = ks ∧
      frames = msgs.map (fun m => u32ToBe m.length ++ xorWithKeystream ks m) := by
  induction msgs generalizing frames ks1 with
  | nil =>
    simp only [sendAll, Except.ok.injEq, Prod.mk.injEq] at h
    exact ⟨h.2.symm, by simp [← h.1]⟩
  | cons m ms ih =>
    unfold sendAll at h
    cases hsm : send_msg ks m with
    | error e => rw [hsm] at h; cases h
    | ok p =>
      obtain ⟨f, ks2⟩ := p
      rw [hsm] at h
      obtain ⟨hks2, hfr⟩ := send_msg_ok_inv ks m f ks2 hsm
      rw [hks2] at h
      dsimp only at h
      cases hall : sendAll ks ms with
      | error e => rw [hall] at h; cases h
      | ok q =>
        obtain ⟨fs, ks3⟩ := q
        rw [hall] at h
        dsimp only at h
        simp only [Except.ok.injEq, Prod.mk.injEq] at h
        obtain ⟨hfs, hks3⟩ := h
        obtain ⟨hk, hf2⟩ := ih fs ks3 hall
        subst hks3
        refine ⟨hk, ?_⟩
        rw [← hfs, List.map_cons, ← hf2, ← hfr]

theorem recvAll_replay (ks : Keystream) (bodies : List (List Nat)) (rest : List Nat)
    (hb : ∀ b ∈ bodies, b.length ≤ MAX_MSG_LEN) :
    recvAll ks bodies.length (wireOfBodies bodies ++ rest) =
      .ok (bodies.map (xorWithKeystream ks), rest, ks) := by
  induction bodies with
  | nil => rfl
  | cons b bs ih =>
    have hlen : b.length ≤ MAX_MSG_LEN := hb b (List.mem_cons_self b bs)
    have h32 : b.length < 2 ^ 32 := by
      have : MAX_MSG_LEN < 2 ^ 32 := by norm_num [MAX_MSG_LEN]
      omega
    have harr : wireOfBodies (b :: bs) ++ rest =
        u32ToBe b.length ++ (b ++ (wireOfBodies bs ++ rest)) := by
      simp [wireOfBodies, List.append_assoc]
    rw [List.length_cons, harr]
    simp only [recvAll, recv_msg_ok ks b.length h32 hlen b (wireOfBodies bs ++ rest) rfl]
    rw [ih (fun x hx => hb x (List.mem_cons_of_mem _ hx))]
    rfl

/-- C2 (amended): `send_msg` and `recv_msg` borrow the generator of a
direction immutably and advance only a local clone, so the persisted
generator is never advanced at all: after any successful sequence of
`send_msg` (respectively `recv_msg`) calls the generator of that
direction equals its initial state, and the keystream of every frame
restarts from that same initial state (each frame is encoded, and each
received frame body decoded, by XOR with the keystream generated from
the initial state). -/
theorem keystream_never_advanced :
    (∀ (ks : Keystream) (msgs frames : List (List Nat)) (ks1 : Keystream),
        sendAll ks msgs = .ok (frames, ks1) →
        ks1 = ks ∧
          frames = msgs.map (fun m => u32ToBe m.length ++ xorWithKeystream ks m)) ∧
    (∀ (ks : Keystream) (bodies : List (List Nat)) (rest : List Nat),
        (∀ b ∈ bodies, b.length ≤ MAX_MSG_LEN) →
        recvAll ks bodies.length (wireOfBodies bodies ++ rest) =
          .ok (bodies.map (xorWithKeystream ks), rest, ks)) :=
  ⟨sendAll_unchanged, recvAll_replay⟩

theorem keystream_never_advanced_witness :
    (Keystream.new 0 = Keystream.new 0 ∧
      [u32ToBe 1 ++ xorWithKeystream (Keystream.new 0) [65]] =
        [[65]].map (fun m => u32ToBe m.length ++ xorWithKeystream (Keystream.new 0) m)) ∧
    recvAll (Keystream.new 0) [[65]].length (wireOfBodies [[65]] ++ [7]) =
      .ok ([[65]].map (xorWithKeystream (Keystream.new 0)), [7], Keystream.new 0) :=
  ⟨keystream_never_advanced.1 (Keystream.new 0) [[65]]
      [u32ToBe 1 ++ xorWithKeystream (Keystream.new 0) [65]] (Keystream.new 0) rfl,
   keystream_never_advanced.2 (Keystream.new 0) [[65]] [7] (by decide)⟩

/-- C4: `modexp` agrees with the naive repeated-modular-multiplication
loop for every base, every exponent and every 64-bit modulus ≥ 1; in
particular `modexp a 0 m = 1` for `m > 1` and `modexp a e 1 = 0`. -/
theorem modexp_matches_naive (a e m : Nat) (hm : 1 ≤ m) (hm64 : m < 2 ^ 64) :
    modexp a e m = modexpNaive a e m ∧
      (1 < m → modexp a 0 m = 1) ∧ modexp a e 1 = 0 := by
  refine ⟨?_, ?_, ?_⟩
  · rw [modexp_spec a e m hm (le_of_lt hm64), modexpNaive_spec]
  · intro h1
    rw [modexp_spec a 0 m hm (le_of_lt hm64), pow_zero, Nat.mod_eq_of_lt h1]
  · simp [modexp]

theorem modexp_matches_naive_witness :
    modexp 3 5 7 = modexpNaive 3 5 7 ∧
      (1 < 7 → modexp 3 0 7 = 1) ∧ modexp 3 5 1 = 0 :=
  modexp_matches_naive 3 5 7 (by norm_num) (by norm_num)

/-- C5: for all 64-bit `a` and `b` and every 64-bit modulus `m ≥ 1`,
`mul_mod a b m` is the exact mathematical product reduced modulo `m`
with no 64-bit wrap-around (the operands are widened to 128 bits). -/
theorem mul_mod_exact (a b m : Nat) (ha : a < 2 ^ 64) (hb : b < 2 ^ 64)
    (hm : 1 ≤ m) (hm64 : m < 2 ^ 64) : mul_mod a b m = a * b % m :=
  mul_mod_eq a b m hm (le_of_lt hm64)

theorem mul_mod_exact_witness :
    mul_mod 9223372036854775808 3 18446744073709551615 =
      9223372036854775808 * 3 % 18446744073709551615 :=
  mul_mod_exact 9223372036854775808 3 18446744073709551615
    (by norm_num) (by norm_num) (by norm_num) (by norm_num)

/-- C8: a frame whose 4-byte big-endian declared length exceeds
`MAX_MSG_LEN` is rejected by `recv_msg` right after the length field is
read, whatever bytes follow (no ciphertext byte is read); a declared
length within the limit makes `recv_msg` read exactly that many
ciphertext bytes, leaving the rest of the stream unconsumed. -/
theorem oversize_frame_rejected (ks : Keystream) (len : Nat)
    (h32 : len < 2 ^ 32) (rest : List Nat) :
    (MAX_MSG_LEN < len →
      recv_msg ks (u32ToBe len ++ rest) = .error "incoming message too large") ∧
    (len ≤ MAX_MSG_LEN → len ≤ rest.length →
      recv_msg ks (u32ToBe len ++ rest) =
        .ok (xorWithKeystream ks (rest.take len), rest.drop len, ks)) := by
  constructor
  · intro hover
    have htake : (u32ToBe len ++ rest).take 4 = u32ToBe len :=
      List.take_left' (u32ToBe_length len)
    have hlen : (u32ToBe len ++ rest).length = 4 + rest.length := by
      simp [u32ToBe_length]
    simp only [recv_msg, htake, beToNat_u32 len h32]
    rw [if_neg (by omega), if_pos hover]
  · intro hle hrest
    have hsplit : rest.take len ++ rest.drop len = rest := List.take_append_drop len rest
    have hlen : (rest.take len).length = len := by
      simp [List.length_take]
      omega
    calc recv_msg ks (u32ToBe len ++ rest)
        = recv_msg ks (u32ToBe len ++ (rest.take len ++ rest.drop len)) := by rw [hsplit]
      _ = .ok (xorWithKeystream ks (rest.take len), rest.drop len, ks) :=
        recv_msg_ok ks len h32 hle _ _ hlen

theorem oversize_frame_rejected_witness :
    recv_msg (Keystream.new 0) (u32ToBe 1048577 ++ []) =
      .error "incoming message too large" :=
  (oversize_frame_rejected (Keystream.new 0) 1048577 (by norm_num) []).1
    (by norm_num [MAX_MSG_LEN])

/-- C9: for every 64-bit seed the initial keystream state is non-zero;
it is the XOR of the low and high 32-bit halves of the seed, and exactly when
that fold is zero the fixed non-zero constant `0x6D2B79F5` is used. -/
theorem keystream_new_nonzero (seed : Nat) (h : seed < 2 ^ 64) :
    (Keystream.new seed).state ≠ 0 ∧
      (seed % 2 ^ 32 ^^^ (seed >>> 32) % 2 ^ 32 ≠ 0 →
        (Keystream.new seed).state = seed % 2 ^ 32 ^^^ (seed >>> 32) % 2 ^ 32) ∧
      (seed % 2 ^ 32 ^^^ (seed >>> 32) % 2 ^ 32 = 0 →
        (Keystream.new seed).state = 0x6D2B79F5) := by
  refine ⟨?_, fun hnz => ?_, fun hz => ?_⟩ <;> simp only [Keystream.new]
  · split
    · norm_num
    · next hne => exact hne
  · rw [if_neg hnz]
  · rw [if_pos hz]

theorem keystream_new_nonzero_witness :
    (Keystream.new 0).state ≠ 0 ∧
      (0 % 2 ^ 32 ^^^ (0 >>> 32) % 2 ^ 32 ≠ 0 →
        (Keystream.new 0).state = 0 % 2 ^ 32 ^^^ (0 >>> 32) % 2 ^ 32) ∧
      (0 % 2 ^ 32 ^^^ (0 >>> 32) % 2 ^ 32 = 0 →
        (Keystream.new 0).state = 0x6D2B79F5) :=
  keystream_new_nonzero 0 (by norm_num)

/-- C10: zero-length frames work in both directions: `recv_msg` on a
stream beginning with four zero length bytes succeeds with an empty
message, consuming nothing past the length field and leaving the
generator untouched; `send_msg` of an empty plaintext writes exactly the
four zero length bytes and no ciphertext. -/
theorem empty_frame_ok (ks : Keystream) (rest : List Nat) :
    recv_msg ks ([0, 0, 0, 0] ++ rest) = .ok ([], rest, ks) ∧
      send_msg ks [] = .ok ([0, 0, 0, 0], ks) := by
  constructor
  · simp [recv_msg, beToNat, MAX_MSG_LEN, xorWithKeystream]
  · rfl

/-- C6: a received peer public value `v` with `v ≤ 1` or `v ≥ P - 1` makes
the handshake fail with the invalid-peer-key condition immediately: the
returned stream state shows that only the 8-byte public-value exchange
was performed (no proof I/O, no keys); for `1 < v < P - 1` the validation
never raises the invalid-peer-key condition. -/
theorem invalid_peer_public_rejected (role : Role) (priv v : Nat)
    (hv : v < 2 ^ 64) (rest : List Nat) :
    ((v ≤ 1 ∨ P - 1 ≤ v) →
      dh_handshake role priv { rx := u64ToBe v ++ rest, tx := [] } =
        .error (.invalidPeerKey, { rx := rest, tx := u64ToBe (modexp G priv P) })) ∧
    (1 < v → v < P - 1 →
      ∀ e c, dh_handshake role priv { rx := u64ToBe v ++ rest, tx := [] } =
          .error (e, c) → e ≠ .invalidPeerKey) := by
  constructor
  · intro hbad
    simp only [dh_handshake, exchange8_ok role v hv rest [] _, List.nil_append]
    rw [if_pos hbad]
  · intro h1 h2 e c h
    simp only [dh_handshake, exchange8_ok role v hv rest [] _, List.nil_append] at h
    rw [if_neg (by omega)] at h
    cases hex : exchange8 role { rx := rest, tx := u64ToBe (modexp G priv P) }
        (mix64 (modexp v priv P ^^^ 0xA5A5A5A5A5A5A5A5)) with
    | error e2 =>
      rw [hex] at h
      dsimp only at h
      have hio := exchange8_error _ _ _ _ hex
      simp only [Except.error.injEq] at h
      rw [h] at hio
      dsimp only at hio
      subst hio
      decide
    | ok p =>
      obtain ⟨pp, c2⟩ := p
      rw [hex] at h
      dsimp only at h
      split at h
      · simp only [Except.error.injEq, Prod.mk.injEq] at h
        rw [← h.1]
        intro hcontra
        cases hcontra
      · cases h

theorem invalid_peer_public_rejected_witness :
    dh_handshake .Server 7 { rx := u64ToBe 1 ++ [], tx := [] } =
      .error (.invalidPeerKey, { rx := [], tx := u64ToBe (modexp G 7 P) }) :=
  (invalid_peer_public_rejected .Server 7 1 (by norm_num) []).1 (Or.inl le_rfl)

/-- C7: if the proof value received from the peer differs from the
locally computed `mix64 (secret XOR confirmation constant)`, the
handshake fails with the secret-mismatch condition and returns no keys;
if the proofs agree, key derivation proceeds and a key pair is
returned. -/
theorem proof_mismatch_rejected (role : Role) (priv v pf : Nat)
    (h1 : 1 < v) (h2 : v < P - 1) (hpf : pf < 2 ^ 64) (rest : List Nat) :
    (pf ≠ mix64 (modexp v priv P ^^^ 0xA5A5A5A5A5A5A5A5) →
      dh_handshake role priv { rx := u64ToBe v ++ (u64ToBe pf ++ rest), tx := [] } =
        .error (.secretMismatch,
          { rx := rest,
            tx := u64ToBe (modexp G priv P) ++
              u64ToBe (mix64 (modexp v priv P ^^^ 0xA5A5A5A5A5A5A5A5)) })) ∧
    (pf = mix64 (modexp v priv P ^^^ 0xA5A5A5A5A5A5A5A5) →
      ∃ ks c,
        dh_handshake role priv { rx := u64ToBe v ++ (u64ToBe pf ++ rest), tx := [] } =
          .ok (ks, c)) := by
  have hv : v < 2 ^ 64 := by
    have : P < 2 ^ 64 := by norm_num [P]
    omega
  constructor
  · intro hne
    simp only [dh_handshake, exchange8_ok role v hv (u64ToBe pf ++ rest) [] _,
      List.nil_append]
    rw [if_neg (by omega)]
    rw [exchange8_ok role pf hpf rest (u64ToBe (modexp G priv P)) _]
    dsimp only
    rw [if_pos hne]
  · intro heq
    simp only [dh_handshake, exchange8_ok role v hv (u64ToBe pf ++ rest) [] _,
      List.nil_append]
    rw [if_neg (by omega)]
    rw [exchange8_ok role pf hpf rest (u64ToBe (modexp G priv P)) _]
    dsimp only
    rw [if_neg (by simp [heq])]
    exact ⟨_, _, rfl⟩

theorem proof_mismatch_rejected_witness :
    dh_handshake .Server 2 { rx := u64ToBe 4 ++ (u64ToBe 0 ++ []), tx := [] } =
      .error (.secretMismatch,
        { rx := [],
          tx := u64ToBe (modexp G 2 P) ++
            u64ToBe (mix64 (modexp 4 2 P ^^^ 0xA5A5A5A5A5A5A5A5)) }) :=
  (proof_mismatch_rejected .Server 2 4 0 (by norm_num) (by norm_num [P])
    (by norm_num) []).1 (by decide)

/-- C3: directional seed symmetry.  For private exponents `a`, `b` in
`[2, P - 2]` on two peers that exchange the actual transport bytes (each
side reads exactly what the other side writes), a successful
Server handshake and a successful Client handshake yield swapped key
pairs: the Server send keystream equals the Client receive keystream
and vice versa; moreover each side writes exactly the bytes the other
side was assumed to read. -/
theorem dh_seed_symmetry (a b : Nat) (ha1 : 2 ≤ a) (ha2 : a ≤ P - 2)
    (hb1 : 2 ≤ b) (hb2 : b ≤ P - 2) (ks kc : Keys) (cs cc : Chan)
    (hs : dh_handshake .Server a { rx := wireFromClient a b, tx := [] } = .ok (ks, cs))
    (hc : dh_handshake .Client b { rx := wireFromServer a b, tx := [] } = .ok (kc, cc)) :
    ks.send = kc.recv ∧ ks.recv = kc.send ∧
      cs.tx = wireFromServer a b ∧ cc.tx = wireFromClient a b := by
  have hP : 0 < P := by norm_num [P]
  have hP64 : P ≤ 2 ^ 64 := by norm_num [P]
  have hpa : publicOf a < 2 ^ 64 := lt_of_lt_of_le (modexp_lt G a P hP hP64) hP64
  have hpb : publicOf b < 2 ^ 64 := lt_of_lt_of_le (modexp_lt G b P hP hP64) hP64
  have hsym : modexp (publicOf a) b P = modexp (publicOf b) a P := by
    unfold publicOf
    rw [modexp_spec (modexp G a P) b P hP hP64, modexp_spec (modexp G b P) a P hP hP64,
      modexp_spec G a P hP hP64, modexp_spec G b P hP hP64,
      ← Nat.pow_mod, ← Nat.pow_mod, ← pow_mul, ← pow_mul, mul_comm]
  simp only [dh_handshake, wireFromClient,
    exchange8_ok .Server (publicOf b) hpb _ [] _, List.nil_append] at hs
  simp only [dh_handshake, wireFromServer,
    exchange8_ok .Client (publicOf a) hpa _ [] _, List.nil_append] at hc
  by_cases hvb : publicOf b ≤ 1 ∨ P - 1 ≤ publicOf b
  · rw [if_pos hvb] at hs; cases hs
  · rw [if_neg hvb] at hs
    by_cases hva : publicOf a ≤ 1 ∨ P - 1 ≤ publicOf a
    · rw [if_pos hva] at hc; cases hc
    · rw [if_neg hva] at hc
      rw [exchange8_ok_exact .Server (mix64 (modexp (publicOf a) b P ^^^ 0xA5A5A5A5A5A5A5A5))
        (mix64_lt _) (u64ToBe (modexp G a P)) _] at hs
      rw [exchange8_ok_exact .Client (mix64 (modexp (publicOf b) a P ^^^ 0xA5A5A5A5A5A5A5A5))
        (mix64_lt _) (u64ToBe (modexp G b P)) _] at hc
      dsimp only at hs hc
      rw [if_neg (by rw [hsym]; exact fun hcon => hcon rfl)] at hs
      rw [if_neg (by rw [hsym]; exact fun hcon => hcon rfl)] at hc
      simp only [Except.ok.injEq, Prod.mk.injEq] at hs hc
      obtain ⟨hks, hcs⟩ := hs
      obtain ⟨hkc, hcc⟩ := hc
      rw [← hks, ← hkc, ← hcs, ← hcc]
      refine ⟨?_, ?_, ?_, ?_⟩
      · simp [hsym]
      · simp [hsym]
      · simp [wireFromServer, publicOf]
      · simp [wireFromClient, publicOf]

theorem dh_seed_symmetry_witness :
    ({ send := { state := 3726340154 }, recv := { state := 1785770125 } } : Keys).send =
        ({ send := { state := 1785770125 }, recv := { state := 3726340154 } } : Keys).recv ∧
      ({ send := { state := 3726340154 }, recv := { state := 1785770125 } } : Keys).recv =
        ({ send := { state := 1785770125 }, recv := { state := 3726340154 } } : Keys).send ∧
      ({ rx := [], tx := wireFromServer 2 3 } : Chan).tx = wireFromServer 2 3 ∧
      ({ rx := [], tx := wireFromClient 2 3 } : Chan).tx = wireFromClient 2 3 :=
  dh_seed_symmetry 2 3 (by norm_num) (by norm_num [P]) (by norm_num) (by norm_num [P])
    { send := { state := 3726340154 }, recv := { state := 1785770125 } }
    { send := { state := 1785770125 }, recv := { state := 3726340154 } }
    { rx := [], tx := wireFromServer 2 3 } { rx := [], tx := wireFromClient 2 3 }
    rfl rfl

end Streamchat
